import Mathlib

/-!
# Verification of `src/bin/tsp.rs` (exhaustive TSP enumerator)

Shallow embedding of the Rust program and proofs of the specification
claims.  The program:

* `next_permutation` (trait `LexicalPermutation for [T]`): in-place
  lexicographic next-permutation.  Embedded as an `Option`-returning
  function on `List α` (`none` models "returns `false`, slice
  unchanged").
* `tour_as_key`: packs a tour into a `u64`, 4 bits per (zero-based)
  index, choosing the traversal direction by comparing the first and
  last element.  `u64` arithmetic is modelled as `Nat` arithmetic
  modulo `2 ^ 64`.  Indexing an empty tour (`tour[0]`,
  `tour.last().unwrap()`) panics in Rust; the embedding returns `none`.
* `calc_tour_length`: round-trip length via `fsum::FSum`.  `FSum` is an
  exact (error-free, correctly rounded) summation whose result depends
  only on the multiset of addends; it is modelled as exact rational
  addition.  `tour[0]` on an empty tour panics; the embedding returns
  `none`.
* `main`'s enumeration loop: `FxHashMap::insert` (insert-or-replace)
  into a map modelled as `ℕ → Option ℚ`, and
  `min_length = min_length.min(length)` starting from `f64::INFINITY`,
  modelled as `Option ℚ` with `none` for `+∞`.
-/

set_option linter.unusedSectionVars false

namespace TspVerify

open List

section NextPermutation

variable {α : Type*} [LinearOrder α] [Inhabited α]

/-- Step 1 loop of `next_permutation`:
`let mut i = self.len() - 1; while i > 0 && self[i-1] >= self[i] { i -= 1; }`.
`findDecStart a k` is the final value of `i` when the loop is started at
`i = k`. -/
def findDecStart (a : List α) : Nat → Nat
  | 0 => 0
  | i + 1 => if a.getD (i + 1) default ≤ a.getD i default then findDecStart a i else i + 1

/-- Step 2 loop of `next_permutation`:
`let mut j = self.len() - 1; while j >= i && self[j] <= self[i-1] { j -= 1; }`
with pivot `p = self[i-1]`.  `findSwap a i p j` is the final value of `j`
when the loop is started at `j`.  (The `0` case with `i = 0` would
underflow in Rust; it is unreachable since the function is only called
with `1 ≤ i ≤ j`.) -/
def findSwap (a : List α) (i : Nat) (p : α) : Nat → Nat
  | 0 => 0
  | j + 1 => if i ≤ j + 1 ∧ a.getD (j + 1) default ≤ p then findSwap a i p j else j + 1

/-- `self.swap(x, y)` on a slice. -/
def listSwap (a : List α) (x y : Nat) : List α :=
  (a.set x (a.getD y default)).set y (a.getD x default)

/-- Embedding of `<[T] as LexicalPermutation>::next_permutation`.
`none` models "returns `false` (and the slice is unchanged)";
`some r` models "returns `true`, the slice now holds `r`". -/
def next_permutation (a : List α) : Option (List α) :=
  if a.length < 2 then none
  else
    let i := findDecStart a (a.length - 1)
    if i = 0 then none
    else
      let j := findSwap a i (a.getD (i - 1) default) (a.length - 1)
      let b := listSwap a j (i - 1)
      some (b.take i ++ (b.drop i).reverse)

example : next_permutation ([1, 2, 3] : List ℕ) = some [1, 3, 2] := by decide
example : next_permutation ([1, 3, 2] : List ℕ) = some [2, 1, 3] := by decide
example : next_permutation ([2, 1, 3] : List ℕ) = some [2, 3, 1] := by decide
example : next_permutation ([2, 3, 1] : List ℕ) = some [3, 1, 2] := by decide
example : next_permutation ([3, 1, 2] : List ℕ) = some [3, 2, 1] := by decide
example : next_permutation ([3, 2, 1] : List ℕ) = none := by decide
example : next_permutation ([5] : List ℕ) = none := by decide
example : next_permutation (([] : List ℕ)) = none := by decide
example : next_permutation ([1, 2, 2] : List ℕ) = some [2, 1, 2] := by decide
example : next_permutation ([2, 1, 2] : List ℕ) = some [2, 2, 1] := by decide

lemma getD_eq_getElem (a : List α) {m : Nat} (h : m < a.length) :
    a.getD m default = a[m] := by
  rw [List.getD_eq_getElem?_getD, List.getElem?_eq_getElem h, Option.getD_some]

lemma findDecStart_le (a : List α) (k : Nat) : findDecStart a k ≤ k := by
  induction k with
  | zero => simp [findDecStart]
  | succ i ih =>
    rw [findDecStart]
    split
    · exact le_trans ih (Nat.le_succ i)
    · exact le_refl _

/-- Everything from the final `i` on is a weakly decreasing run. -/
lemma findDecStart_desc (a : List α) (k : Nat) :
    ∀ m, findDecStart a k ≤ m → m < k → a.getD (m + 1) default ≤ a.getD m default := by
  induction k with
  | zero => intro m _ h; exact absurd h (by omega)
  | succ i ih =>
    intro m h1 h2
    rw [findDecStart] at h1
    by_cases hc : a.getD (i + 1) default ≤ a.getD i default
    · rw [if_pos hc] at h1
      rcases Nat.lt_or_ge m i with hm | hm
      · exact ih m h1 hm
      · have hmi : m = i := by omega
        subst hmi; exact hc
    · rw [if_neg hc] at h1
      exact absurd h2 (by omega)

/-- If the final `i` is positive, the element before it is a strict ascent. -/
lemma findDecStart_pos_lt (a : List α) (k : Nat) (h : 0 < findDecStart a k) :
    a.getD (findDecStart a k - 1) default < a.getD (findDecStart a k) default := by
  induction k with
  | zero => simp [findDecStart] at h
  | succ i ih =>
    rw [findDecStart] at h ⊢
    by_cases hc : a.getD (i + 1) default ≤ a.getD i default
    · rw [if_pos hc] at h ⊢; exact ih h
    · rw [if_neg hc] at h ⊢
      simpa using lt_of_not_le hc

/-- On a weakly decreasing list the step-1 loop walks all the way to `0`. -/
lemma findDecStart_eq_zero (a : List α)
    (hs : ∀ m, m + 1 < a.length → a.getD (m + 1) default ≤ a.getD m default) :
    ∀ k, k < a.length → findDecStart a k = 0 := by
  intro k
  induction k with
  | zero => intro _; rfl
  | succ i ih =>
    intro hk
    rw [findDecStart, if_pos (hs i hk)]
    exact ih (by omega)

lemma findSwap_le (a : List α) (i : Nat) (p : α) (j : Nat) : findSwap a i p j ≤ j := by
  induction j with
  | zero => simp [findSwap]
  | succ j ih =>
    rw [findSwap]
    split
    · exact le_trans ih (Nat.le_succ j)
    · exact le_refl _

lemma findSwap_ge (a : List α) (i : Nat) (p : α) (hp : p < a.getD i default) :
    ∀ j, i ≤ j → i ≤ findSwap a i p j := by
  intro j
  induction j with
  | zero => intro h; simpa [findSwap] using h
  | succ j ih =>
    intro h
    rw [findSwap]
    by_cases hc : i ≤ j + 1 ∧ a.getD (j + 1) default ≤ p
    · rw [if_pos hc]
      apply ih
      rcases Nat.lt_or_ge i (j + 1) with h' | h'
      · omega
      · exfalso
        have hij : i = j + 1 := by omega
        rw [hij] at hp
        exact absurd hc.2 (not_le_of_lt hp)
    · rw [if_neg hc]; exact h

/-- The element the step-2 loop stops at is strictly greater than the pivot. -/
lemma findSwap_gt (a : List α) (i : Nat) (p : α) (hp : p < a.getD i default) :
    ∀ j, i ≤ j → p < a.getD (findSwap a i p j) default := by
  intro j
  induction j with
  | zero =>
    intro h
    have hi0 : i = 0 := by omega
    subst hi0
    simpa [findSwap] using hp
  | succ j ih =>
    intro h
    rw [findSwap]
    by_cases hc : i ≤ j + 1 ∧ a.getD (j + 1) default ≤ p
    · rw [if_pos hc]
      apply ih
      rcases Nat.lt_or_ge i (j + 1) with h' | h'
      · omega
      · exfalso
        have hij : i = j + 1 := by omega
        rw [hij] at hp
        exact absurd hc.2 (not_le_of_lt hp)
    · rw [if_neg hc]
      push_neg at hc
      exact hc h

/-- Everything strictly right of the final `j` is `≤` the pivot. -/
lemma findSwap_after (a : List α) (i : Nat) (p : α) :
    ∀ j m, findSwap a i p j < m → m ≤ j → a.getD m default ≤ p := by
  intro j
  induction j with
  | zero =>
    intro m h1 h2
    simp only [findSwap] at h1
    exact absurd h2 (by omega)
  | succ j ih =>
    intro m h1 h2
    rw [findSwap] at h1
    by_cases hc : i ≤ j + 1 ∧ a.getD (j + 1) default ≤ p
    · rw [if_pos hc] at h1
      rcases Nat.lt_or_ge m (j + 1) with hm | hm
      · exact ih m h1 (by omega)
      · have hmj : m = j + 1 := by omega
        subst hmj; exact hc.2
    · rw [if_neg hc] at h1
      exact absurd h2 (by omega)

lemma getElem_congr (a : List α) {x y : Nat} (hx : x < a.length) (hy : y < a.length)
    (h : x = y) : a[x] = a[y] := by
  subst h; rfl

/-- `self.swap(j, i-1)` splits the slice into the untouched front, the element
`self[j]` now sitting at position `i-1`, and the suffix with position `j`
overwritten by the old pivot. -/
lemma listSwap_decomp (a : List α) (i j : Nat) (hi : 0 < i) (hij : i ≤ j) (hj : j < a.length) :
    listSwap a j (i - 1) =
      a.take (i - 1) ++ a[j] :: (a.drop i).set (j - i) a[i - 1] := by
  have hi1 : i - 1 < a.length := by omega
  have hlt : (a.take (i - 1)).length = i - 1 := by
    rw [List.length_take]; omega
  have hXlen : ((a.drop i).set (j - i) a[i - 1]).length = a.length - i := by
    rw [List.length_set, List.length_drop]
  apply List.ext_getElem
  · simp [listSwap]
    omega
  · intro m hm1 hm2
    simp only [listSwap, List.length_set] at hm1 ⊢
    simp only [getD_eq_getElem a hi1, getD_eq_getElem a hj]
    simp only [List.getElem_set]
    by_cases hm : m < i - 1
    · rw [List.getElem_append_left (show m < (a.take (i - 1)).length by omega)]
      rw [List.getElem_take, if_neg (show ¬ (i - 1 = m) by omega),
        if_neg (show ¬ (j = m) by omega)]
    · by_cases hm' : m = i - 1
      · rw [if_pos hm'.symm]
        rw [List.getElem_append_right (le_of_eq (hlt.trans hm'.symm))]
        rw [getElem_congr _ (by simp only [List.length_cons, List.length_take, List.length_set, List.length_drop]; omega) (by simp only [List.length_cons, List.length_take, List.length_set, List.length_drop]; omega)
          (show m - (a.take (i - 1)).length = 0 by omega)]
        rw [List.getElem_cons_zero]
      · have hmi : i ≤ m := by omega
        rw [if_neg (show ¬ (i - 1 = m) by omega)]
        rw [List.getElem_append_right (show (a.take (i - 1)).length ≤ m by omega)]
        rw [getElem_congr _ (by simp only [List.length_cons, List.length_take, List.length_set, List.length_drop]; omega) (by simp only [List.length_cons, List.length_take, List.length_set, List.length_drop]; omega)
          (show m - (a.take (i - 1)).length = (m - i) + 1 by omega)]
        rw [List.getElem_cons_succ]
        rw [List.getElem_set]
        by_cases hmj : j = m
        · rw [if_pos hmj, if_pos (show j - i = m - i by omega)]
        · rw [if_neg hmj, if_neg (show ¬ (j - i = m - i) by omega)]
          rw [List.getElem_drop]
          exact (getElem_congr a (by omega) (by omega) (show i + (m - i) = m by omega)).symm

/-- Structural description of a successful `next_permutation` step: the input
splits as `u ++ p :: s` with `s` the maximal weakly decreasing suffix and `p`
the pivot, and the output is `u ++ b :: t` where `b` is the least element of
`s` exceeding `p` and `t` is the remaining elements in ascending order. -/
theorem next_permutation_shape {a r : List α} (h : next_permutation a = some r) :
    ∃ (u : List α) (p b : α) (s t : List α),
      a = u ++ p :: s ∧ r = u ++ b :: t ∧
      s.Sorted (· ≥ ·) ∧ b ∈ s ∧ p < b ∧ (∀ x ∈ s, p < x → b ≤ x) ∧
      t.Sorted (· ≤ ·) ∧ (b :: t).Perm (p :: s) := by
  simp only [next_permutation] at h
  by_cases hlen : a.length < 2
  · rw [if_pos hlen] at h; exact absurd h (by simp)
  rw [if_neg hlen] at h
  by_cases hi0 : findDecStart a (a.length - 1) = 0
  · rw [if_pos hi0] at h; exact absurd h (by simp)
  rw [if_neg hi0] at h
  rw [Option.some.injEq] at h
  push_neg at hlen
  set i := findDecStart a (a.length - 1)
  have hipos : 0 < i := Nat.pos_of_ne_zero hi0
  have hile : i ≤ a.length - 1 := findDecStart_le a (a.length - 1)
  have hii : i < a.length := by omega
  have hi1 : i - 1 < a.length := by omega
  have hp : a.getD (i - 1) default < a.getD i default := findDecStart_pos_lt a (a.length - 1) hipos
  set j := findSwap a i (a.getD (i - 1) default) (a.length - 1)
  have hji : i ≤ j := findSwap_ge a i _ hp (a.length - 1) (by omega)
  have hjle : j ≤ a.length - 1 := findSwap_le a i _ (a.length - 1)
  have hjlt : j < a.length := by omega
  have hpj : a.getD (i - 1) default < a.getD j default :=
    findSwap_gt a i _ hp (a.length - 1) (by omega)
  have hkd : j - i < (a.drop i).length := by rw [List.length_drop]; omega
  have hpE : a[i - 1] < a[j] := by
    rw [← getD_eq_getElem a hi1, ← getD_eq_getElem a hjlt]; exact hpj
  have hswap : listSwap a j (i - 1) =
      a.take (i - 1) ++ a[j] :: (a.drop i).set (j - i) a[i - 1] :=
    listSwap_decomp a i j hipos hji hjlt
  have hsor : (a.drop i).Sorted (· ≥ ·) := by
    show List.Pairwise _ _
    rw [← List.chain'_iff_pairwise, List.chain'_iff_get]
    intro m hm
    rw [List.length_drop] at hm
    rw [List.get_eq_getElem, List.get_eq_getElem]
    simp only [List.getElem_drop]
    have hd := findDecStart_desc a (a.length - 1) (i + m) (by omega) (by omega)
    rw [getD_eq_getElem a (show i + m + 1 < a.length by omega),
      getD_eq_getElem a (show i + m < a.length by omega)] at hd
    exact hd
  have hsk : (a.drop i)[j - i] = a[j] := by
    rw [List.getElem_drop]
    exact getElem_congr a (by omega) hjlt (by omega)
  have hbmem : a[j] ∈ a.drop i := by
    rw [← hsk]; exact List.getElem_mem hkd
  have hmin : ∀ x ∈ a.drop i, a[i - 1] < x → a[j] ≤ x := by
    intro x hx hpx
    obtain ⟨m, hm, hxm⟩ := List.mem_iff_getElem.mp hx
    rw [List.length_drop] at hm
    rcases Nat.lt_or_ge (j - i) m with hlt2 | hge2
    · exfalso
      have hafter := findSwap_after a i (a.getD (i - 1) default) (a.length - 1)
        (i + m) (by omega) (by omega)
      rw [getD_eq_getElem a (show i + m < a.length by omega),
        getD_eq_getElem a hi1] at hafter
      have hx2 : x = a[i + m] := by
        rw [← hxm, List.getElem_drop]
      have hxle : x ≤ a[i - 1] := by rw [hx2]; exact hafter
      exact absurd hpx (not_lt_of_le hxle)
    · have hgoal : a[j] ≤ (a.drop i)[m] := by
        by_cases hmk : m = j - i
        · exact le_of_eq (hsk.symm.trans (getElem_congr _ hkd (by omega) hmk.symm))
        · have hless := List.Sorted.rel_get_of_lt hsor
            (a := ⟨m, by rw [List.length_drop]; omega⟩)
            (b := ⟨j - i, hkd⟩) (Fin.mk_lt_mk.mpr (by omega))
          rw [List.get_eq_getElem, List.get_eq_getElem] at hless
          rw [← hsk]
          exact hless
      rw [hxm] at hgoal
      exact hgoal
  have hset_sorted : List.Pairwise (· ≥ ·) ((a.drop i).set (j - i) a[i - 1]) := by
    rw [← List.chain'_iff_pairwise, List.chain'_iff_get]
    intro m hm
    rw [List.length_set, List.length_drop] at hm
    rw [List.get_eq_getElem, List.get_eq_getElem]
    simp only [List.getElem_set]
    by_cases h1 : j - i = m
    · rw [if_pos h1, if_neg (by omega)]
      have hafter := findSwap_after a i (a.getD (i - 1) default) (a.length - 1)
        (i + (m + 1)) (by omega) (by omega)
      rw [getD_eq_getElem a (show i + (m + 1) < a.length by omega),
        getD_eq_getElem a hi1] at hafter
      rw [List.getElem_drop]
      exact hafter
    · by_cases h2 : j - i = m + 1
      · rw [if_neg h1, if_pos h2]
        have hless := List.Sorted.rel_get_of_lt hsor
          (a := ⟨m, by rw [List.length_drop]; omega⟩)
          (b := ⟨j - i, hkd⟩) (Fin.mk_lt_mk.mpr (by omega))
        rw [List.get_eq_getElem, List.get_eq_getElem] at hless
        have hbm : a[j] ≤ (a.drop i)[m] := by rw [← hsk]; exact hless
        exact le_trans (le_of_lt hpE) hbm
      · rw [if_neg h1, if_neg h2]
        have hadj := List.Sorted.rel_get_of_lt hsor
          (a := ⟨m, by rw [List.length_drop]; omega⟩)
          (b := ⟨m + 1, by rw [List.length_drop]; omega⟩) (Fin.mk_lt_mk.mpr (by omega))
        rw [List.get_eq_getElem, List.get_eq_getElem] at hadj
        exact hadj
  have hperm : (a[j] :: ((a.drop i).set (j - i) a[i - 1]).reverse).Perm
      (a[i - 1] :: a.drop i) := by
    have e1 : ((a.drop i).set (j - i) a[i - 1]).reverse.Perm
        ((a.drop i).set (j - i) a[i - 1]) := List.reverse_perm _
    have e2 : ((a.drop i).set (j - i) a[i - 1]).Perm
        (a[i - 1] :: (a.drop i).eraseIdx (j - i)) := by
      rw [List.set_eq_take_append_cons_drop, if_pos hkd, List.eraseIdx_eq_take_drop_succ]
      exact List.perm_middle
    have e3 : (a.drop i).Perm (a[j] :: (a.drop i).eraseIdx (j - i)) := by
      conv_lhs => rw [← List.take_append_drop (j - i) (a.drop i),
        List.drop_eq_getElem_cons hkd]
      rw [List.eraseIdx_eq_take_drop_succ, hsk]
      exact List.perm_middle
    calc a[j] :: ((a.drop i).set (j - i) a[i - 1]).reverse
        ~ a[j] :: (a[i - 1] :: (a.drop i).eraseIdx (j - i)) :=
          List.Perm.cons _ (e1.trans e2)
      _ ~ a[i - 1] :: a[j] :: (a.drop i).eraseIdx (j - i) :=
          List.Perm.swap (a[i - 1]) (a[j]) _
      _ ~ a[i - 1] :: a.drop i := List.Perm.cons _ e3.symm
  have hadecomp : a = a.take (i - 1) ++ a[i - 1] :: a.drop i := by
    conv_lhs => rw [← List.take_append_drop (i - 1) a, List.drop_eq_getElem_cons hi1]
    rw [show i - 1 + 1 = i from by omega]
  have hr : r = a.take (i - 1) ++ a[j] :: ((a.drop i).set (j - i) a[i - 1]).reverse := by
    rw [← h, hswap]
    have hre : a.take (i - 1) ++ a[j] :: ((a.drop i).set (j - i) a[i - 1]) =
        (a.take (i - 1) ++ [a[j]]) ++ ((a.drop i).set (j - i) a[i - 1]) := by simp
    rw [hre, List.take_left' (by simp [List.length_take]; omega),
      List.drop_left' (by simp [List.length_take]; omega)]
    simp
  refine ⟨a.take (i - 1), a[i - 1], a[j], a.drop i,
    ((a.drop i).set (j - i) a[i - 1]).reverse,
    hadecomp, hr, hsor, hbmem, hpE, hmin, ?_, hperm⟩
  show List.Pairwise _ _
  rw [List.pairwise_reverse]
  exact hset_sorted

/-- A weakly decreasing list is lexicographically maximal among its
permutations. -/
lemma sorted_ge_not_lex : ∀ (s w : List α), s.Sorted (· ≥ ·) → w.Perm s →
    ¬ List.Lex (· < ·) s w := by
  intro s
  induction s with
  | nil =>
    intro w _ hperm hlex
    rw [List.perm_nil.mp hperm] at hlex
    exact List.Lex.not_nil_right _ _ hlex
  | cons x s' ih =>
    intro w hs hperm hlex
    cases hlex with
    | cons h =>
      exact ih _ (List.sorted_cons.mp hs).2 hperm.cons_inv h
    | rel h =>
      rename_i y w'
      have hy : y ∈ x :: s' := hperm.subset (List.mem_cons_self y w')
      rcases List.mem_cons.mp hy with h1 | h1
      · exact absurd (h1 ▸ h) (lt_irrefl x)
      · exact absurd h (not_lt_of_le ((List.sorted_cons.mp hs).1 y h1))

/-- A weakly increasing list is lexicographically minimal among its
permutations. -/
lemma sorted_le_not_lex : ∀ (t w : List α), t.Sorted (· ≤ ·) → w.Perm t →
    ¬ List.Lex (· < ·) w t := by
  intro t
  induction t with
  | nil =>
    intro w _ hperm hlex
    rw [List.perm_nil.mp hperm] at hlex
    exact List.Lex.not_nil_right _ _ hlex
  | cons x t' ih =>
    intro w hs hperm hlex
    cases hlex with
    | nil =>
      have hl := hperm.length_eq
      simp at hl
    | cons h =>
      exact ih _ (List.sorted_cons.mp hs).2 hperm.cons_inv h
    | rel h =>
      rename_i y w'
      have hy : y ∈ x :: t' := hperm.subset (List.mem_cons_self y w')
      rcases List.mem_cons.mp hy with h1 | h1
      · exact absurd (h1 ▸ h) (lt_irrefl x)
      · exact absurd h (not_lt_of_le ((List.sorted_cons.mp hs).1 y h1))

lemma min_le_of_sorted_le (t w : List α) (ht : t.Sorted (· ≤ ·)) (hperm : w.Perm t) :
    t = w ∨ List.Lex (· < ·) t w := by
  haveI : IsTrichotomous α (· < ·) := ⟨lt_trichotomy⟩
  rcases trichotomous_of (List.Lex (· < ·)) t w with h | h | h
  · exact Or.inr h
  · exact Or.inl h
  · exact absurd h (sorted_le_not_lex t w ht hperm)

/-- Core minimality: with no common front, `b :: t` is the least permutation of
`p :: s` that is lexicographically above `p :: s`. -/
lemma succ_min_core (p b : α) (s t : List α) (hs : s.Sorted (· ≥ ·))
    (hmin : ∀ x ∈ s, p < x → b ≤ x) (ht : t.Sorted (· ≤ ·))
    (hperm : (b :: t).Perm (p :: s)) :
    ∀ m, m.Perm (p :: s) → List.Lex (· < ·) (p :: s) m →
      (b :: t = m ∨ List.Lex (· < ·) (b :: t) m) := by
  intro m hm hlex
  cases hlex with
  | cons h =>
    rename_i w
    exact absurd h (sorted_ge_not_lex s w hs hm.cons_inv)
  | rel h =>
    rename_i c w
    have hc : c ∈ p :: s := hm.subset (List.mem_cons_self c w)
    rcases List.mem_cons.mp hc with h1 | h1
    · exact absurd (h1 ▸ h) (lt_irrefl p)
    · have hbc : b ≤ c := hmin c h1 h
      rcases lt_or_eq_of_le hbc with h2 | h2
      · exact Or.inr (List.Lex.rel h2)
      · subst h2
        have htw : w.Perm t := (hperm.trans hm.symm).cons_inv.symm
        rcases min_le_of_sorted_le t w ht htw with h3 | h3
        · exact Or.inl (by rw [h3])
        · exact Or.inr (List.Lex.cons h3)

/-- Minimality transported through a common front `u`. -/
lemma lex_lift (v w : List α)
    (hmin : ∀ m, m.Perm v → List.Lex (· < ·) v m → (w = m ∨ List.Lex (· < ·) w m)) :
    ∀ (u : List α) (m : List α), m.Perm (u ++ v) → List.Lex (· < ·) (u ++ v) m →
      (u ++ w = m ∨ List.Lex (· < ·) (u ++ w) m) := by
  intro u
  induction u with
  | nil => intro m hm hlex; exact hmin m hm hlex
  | cons x u' ih =>
    intro m hm hlex
    cases hlex with
    | cons h =>
      rename_i m'
      rcases ih m' hm.cons_inv h with h1 | h1
      · exact Or.inl (congrArg (List.cons x) h1)
      · exact Or.inr (List.Lex.cons h1)
    | rel h =>
      exact Or.inr (List.Lex.rel h)

/-- A successful `next_permutation` step returns a permutation of the input
that is the immediate lexicographic successor among all permutations. -/
theorem next_permutation_succ {a r : List α} (h : next_permutation a = some r) :
    r.Perm a ∧ List.Lex (· < ·) a r ∧
      ∀ m, m.Perm a → List.Lex (· < ·) a m → (r = m ∨ List.Lex (· < ·) r m) := by
  obtain ⟨u, p, b, s, t, ha, hr, hs, hbmem, hpb, hmin, ht, hperm⟩ := next_permutation_shape h
  subst ha
  subst hr
  refine ⟨List.Perm.append_left u hperm, ?_, ?_⟩
  · exact List.Lex.append_left _ (List.Lex.rel hpb) u
  · exact lex_lift (p :: s) (b :: t) (succ_min_core p b s t hs hmin ht hperm) u

/-- `next_permutation` reports `false` exactly on short or weakly decreasing
sequences (and then leaves the sequence unchanged, which the `Option`
embedding makes implicit). -/
theorem next_permutation_eq_none_iff (a : List α) :
    next_permutation a = none ↔ (a.length < 2 ∨ a.Sorted (· ≥ ·)) := by
  constructor
  · intro h
    simp only [next_permutation] at h
    by_cases hlen : a.length < 2
    · exact Or.inl hlen
    rw [if_neg hlen] at h
    by_cases hi0 : findDecStart a (a.length - 1) = 0
    · refine Or.inr ?_
      show List.Pairwise _ _
      rw [← List.chain'_iff_pairwise, List.chain'_iff_get]
      intro m hm
      rw [List.get_eq_getElem, List.get_eq_getElem]
      have hd := findDecStart_desc a (a.length - 1) m (by omega) (by omega)
      rw [getD_eq_getElem a (show m + 1 < a.length by omega),
        getD_eq_getElem a (show m < a.length by omega)] at hd
      exact hd
    · rw [if_neg hi0] at h
      exact absurd h (by simp)
  · intro h
    simp only [next_permutation]
    by_cases hlen : a.length < 2
    · rw [if_pos hlen]
    · rw [if_neg hlen]
      have hsorted : a.Sorted (· ≥ ·) := by
        rcases h with h | h
        · exact absurd h hlen
        · exact h
      have hadj : ∀ m, m + 1 < a.length → a.getD (m + 1) default ≤ a.getD m default := by
        intro m hm1
        have hrel := List.Sorted.rel_get_of_lt hsorted
          (a := ⟨m, by omega⟩) (b := ⟨m + 1, hm1⟩) (Fin.mk_lt_mk.mpr (by omega))
        rw [List.get_eq_getElem, List.get_eq_getElem] at hrel
        rw [getD_eq_getElem a hm1, getD_eq_getElem a (show m < a.length by omega)]
        exact hrel
      rw [if_pos (findDecStart_eq_zero a hadj (a.length - 1) (by omega))]

/-- When `next_permutation` reports `false` the sequence is lexicographically
maximal among its permutations. -/
theorem max_of_none {a : List α} (h : next_permutation a = none) :
    ∀ m, m.Perm a → ¬ List.Lex (· < ·) a m := by
  have hsorted : a.Sorted (· ≥ ·) := by
    rcases (next_permutation_eq_none_iff a).mp h with hlen | hs
    · rcases a with _ | ⟨x, _ | ⟨y, rest⟩⟩
      · exact List.sorted_nil
      · exact List.sorted_singleton x
      · exfalso
        rw [List.length_cons, List.length_cons] at hlen
        omega
    · exact hs
  intro m hm hlex
  exact sorted_ge_not_lex a m hsorted hm hlex

end NextPermutation

section PermChain

variable {α : Type*} [LinearOrder α] [Inhabited α]

/-- The sequence of states visited by `main`'s
`loop { ...; if !tour.next_permutation() { break } }`, starting from (and
including) `l`.  `fuel` is an upper bound on the number of advances; with
`fuel ≥ above l` the recursion stops at the last permutation, never for lack
of fuel. -/
def permChain : Nat → List α → List (List α)
  | 0, l => [l]
  | fuel + 1, l =>
    l ::
      (match next_permutation l with
       | none => []
       | some r => permChain fuel r)

/-- The number of permutations of `l` strictly above `l` in lexicographic
order. -/
def above (l : List α) : Nat :=
  ((l.permutations.toFinset).filter (fun m => List.Lex (· < ·) l m)).card

lemma lex_irrefl (l : List α) : ¬ List.Lex (· < ·) l l := by
  intro h
  haveI : IsAsymm α (· < ·) := ⟨fun _ _ h1 h2 => absurd h2 (lt_asymm h1)⟩
  exact (List.Lex.isAsymm (· < ·)).asymm l l h h

lemma permChain_ne_nil (fuel : Nat) (l : List α) : permChain fuel l ≠ [] := by
  cases fuel <;> simp [permChain]

lemma permChain_head (fuel : Nat) (l : List α) : (permChain fuel l).head? = some l := by
  cases fuel <;> rfl

/-- Each successful step decreases the number of permutations still ahead by
exactly one: nothing is skipped. -/
lemma above_step {l r : List α} (h : next_permutation l = some r) :
    above l = above r + 1 := by
  obtain ⟨hperm, hlex, hmin⟩ := next_permutation_succ h
  have hT : r.permutations.toFinset = l.permutations.toFinset :=
    List.toFinset_eq_of_perm _ _ hperm.permutations
  have hfilter : (l.permutations.toFinset).filter (fun m => List.Lex (· < ·) l m) =
      insert r ((l.permutations.toFinset).filter (fun m => List.Lex (· < ·) r m)) := by
    ext m
    simp only [Finset.mem_filter, Finset.mem_insert, List.mem_toFinset, List.mem_permutations]
    constructor
    · rintro ⟨hm, hlm⟩
      rcases hmin m hm hlm with h1 | h1
      · exact Or.inl h1.symm
      · exact Or.inr ⟨hm, h1⟩
    · rintro (rfl | ⟨hm, hrm⟩)
      · exact ⟨hperm, hlex⟩
      · exact ⟨hm, IsTrans.trans l r m hlex hrm⟩
  have hnotmem : r ∉ (l.permutations.toFinset).filter (fun m => List.Lex (· < ·) r m) := by
    simp only [Finset.mem_filter]
    rintro ⟨-, habs⟩
    exact lex_irrefl r habs
  rw [above, above, hfilter, Finset.card_insert_of_not_mem hnotmem, hT]

lemma above_eq_zero_of_none {l : List α} (h : next_permutation l = none) : above l = 0 := by
  rw [above, Finset.card_eq_zero, Finset.filter_eq_empty_iff]
  intro m hm
  rw [List.mem_toFinset, List.mem_permutations] at hm
  exact max_of_none h m hm

lemma none_of_above_eq_zero {l : List α} (h0 : above l = 0) :
    next_permutation l = none := by
  cases hn : next_permutation l with
  | none => rfl
  | some r =>
    exfalso
    have := above_step hn
    omega

/-- Master invariant of the enumeration: starting anywhere, the visited states
are exactly the permutations lexicographically at or above the start, in
strictly increasing order, and the loop ends with a "no next permutation"
report on the final state. -/
theorem permChain_spec : ∀ (fuel : Nat) (l : List α), above l ≤ fuel →
    (permChain fuel l).length = above l + 1 ∧
    (permChain fuel l).Chain' (List.Lex (· < ·)) ∧
    (∀ m, m ∈ permChain fuel l ↔ (m.Perm l ∧ (m = l ∨ List.Lex (· < ·) l m))) ∧
    (∃ z, (permChain fuel l).getLast? = some z ∧ next_permutation z = none) := by
  intro fuel
  induction fuel with
  | zero =>
    intro l hfuel
    have h0 : above l = 0 := by omega
    have hnone : next_permutation l = none := none_of_above_eq_zero h0
    refine ⟨by simp [permChain, h0], by simp [permChain], ?_,
      ⟨l, by simp [permChain], hnone⟩⟩
    intro m
    simp only [permChain, List.mem_singleton]
    constructor
    · rintro rfl; exact ⟨List.Perm.refl _, Or.inl rfl⟩
    · rintro ⟨hm, hl | hl⟩
      · exact hl
      · exact absurd hl (max_of_none hnone m hm)
  | succ fuel ih =>
    intro l hfuel
    cases hn : next_permutation l with
    | none =>
      have h0 : above l = 0 := above_eq_zero_of_none hn
      have hch : permChain (fuel + 1) l = [l] := by simp [permChain, hn]
      refine ⟨by rw [hch, h0]; rfl, by rw [hch]; exact List.chain'_singleton l, ?_,
        ⟨l, by rw [hch]; rfl, hn⟩⟩
      intro m
      rw [hch]
      simp only [List.mem_singleton]
      constructor
      · rintro rfl; exact ⟨List.Perm.refl _, Or.inl rfl⟩
      · rintro ⟨hm, hl | hl⟩
        · exact hl
        · exact absurd hl (max_of_none hn m hm)
    | some r =>
      obtain ⟨hperm, hlex, hmin⟩ := next_permutation_succ hn
      have hstep : above l = above r + 1 := above_step hn
      have hfr : above r ≤ fuel := by omega
      obtain ⟨ihlen, ihchain, ihmem, z, ihlast, ihz⟩ := ih r hfr
      have hch : permChain (fuel + 1) l = l :: permChain fuel r := by simp [permChain, hn]
      refine ⟨?_, ?_, ?_, ?_⟩
      · rw [hch, List.length_cons, ihlen]; omega
      · rw [hch, List.chain'_cons']
        refine ⟨?_, ihchain⟩
        intro y hy
        rw [permChain_head fuel r] at hy
        simp only [Option.mem_def, Option.some.injEq] at hy
        rw [← hy]
        exact hlex
      · intro m
        rw [hch]
        simp only [List.mem_cons]
        rw [ihmem m]
        constructor
        · rintro (rfl | ⟨hmr, h2⟩)
          · exact ⟨List.Perm.refl _, Or.inl rfl⟩
          · refine ⟨hmr.trans hperm, Or.inr ?_⟩
            rcases h2 with rfl | h2
            · exact hlex
            · exact IsTrans.trans l r m hlex h2
        · rintro ⟨hml, rfl | h2⟩
          · exact Or.inl rfl
          · rcases hmin m hml h2 with h3 | h3
            · subst h3
              exact Or.inr ⟨List.Perm.refl r, Or.inl rfl⟩
            · exact Or.inr ⟨hml.trans hperm.symm, Or.inr h3⟩
      · refine ⟨z, ?_, ihz⟩
        rw [hch]
        cases hpc : permChain fuel r with
        | nil => exact absurd hpc (permChain_ne_nil fuel r)
        | cons t0 ts =>
          rw [hpc] at ihlast
          rw [List.getLast?_cons_cons]
          exact ihlast

/-- From the identity (sorted ascending, hence distinct) start, the chain
visits all `K!` permutations, strictly increasing, and the final call reports
"no next permutation". -/
theorem permChain_complete (l : List α) (hsort : l.Sorted (· < ·)) :
    (permChain (l.length.factorial) l).length = l.length.factorial ∧
    (permChain (l.length.factorial) l).Chain' (List.Lex (· < ·)) ∧
    (permChain (l.length.factorial) l).Nodup ∧
    (∀ m, m ∈ permChain (l.length.factorial) l ↔ m.Perm l) ∧
    (∃ z, (permChain (l.length.factorial) l).getLast? = some z ∧
      next_permutation z = none) := by
  haveI : IsIrrefl α (· < ·) := ⟨lt_irrefl⟩
  have hnd : l.Nodup := hsort.nodup
  have hle : l.Sorted (· ≤ ·) := hsort.le_of_lt
  have hmin : ∀ m, m.Perm l → m ≠ l → List.Lex (· < ·) l m := by
    intro m hm hne
    haveI : IsTrichotomous α (· < ·) := ⟨lt_trichotomy⟩
    rcases trichotomous_of (List.Lex (· < ·)) l m with h | h | h
    · exact h
    · exact absurd h.symm hne
    · exact absurd h (sorted_le_not_lex l m hle hm)
  have habove : above l = l.length.factorial - 1 := by
    have hfl : (l.permutations.toFinset).filter (fun m => List.Lex (· < ·) l m) =
        (l.permutations.toFinset).erase l := by
      ext m
      simp only [Finset.mem_filter, Finset.mem_erase, List.mem_toFinset,
        List.mem_permutations]
      constructor
      · rintro ⟨hm, hlm⟩
        exact ⟨fun he => absurd (he ▸ hlm) (lex_irrefl l), hm⟩
      · rintro ⟨hne, hm⟩
        exact ⟨hm, hmin m hm hne⟩
    rw [above, hfl, Finset.card_erase_of_mem
      (by rw [List.mem_toFinset, List.mem_permutations])]
    rw [List.toFinset_card_of_nodup (List.nodup_permutations l hnd),
      List.length_permutations]
  have hfuel : above l ≤ l.length.factorial := by omega
  obtain ⟨hlen, hchain, hmem, hlast⟩ := permChain_spec (l.length.factorial) l hfuel
  have hfact : 0 < l.length.factorial := Nat.factorial_pos _
  refine ⟨by rw [hlen, habove]; omega, hchain, ?_, ?_, hlast⟩
  · have hpw := (List.chain'_iff_pairwise).mp hchain
    exact hpw.imp (fun h => fun he => absurd (he ▸ h) (lex_irrefl _))
  · intro m
    rw [hmem m]
    constructor
    · rintro ⟨hm, _⟩; exact hm
    · intro hm
      refine ⟨hm, ?_⟩
      by_cases he : m = l
      · exact Or.inl he
      · exact Or.inr (hmin m hm he)

end PermChain

section Tsp

/-- The packing loop of `tour_as_key`: `key <<= 4; key += (*t - 1) as u64`,
with `u64` arithmetic modelled as `Nat` arithmetic modulo `2 ^ 64`.
(Valid tours only hold indices `t ≥ 1`; for `t = 0` Rust's `*t - 1` would
wrap while `Nat` subtraction truncates, but no claim touches that case.) -/
def pack (tour : List ℕ) : ℕ :=
  tour.foldl (fun key t => ((key * 2 ^ 4) % 2 ^ 64 + (t - 1)) % 2 ^ 64) 0

/-- Embedding of `tour_as_key`.  `tour[0]` / `tour.last().unwrap()` panic on
an empty tour; the embedding returns `none` there.  Encoding the tour in
reverse iteration order is packing the reversed list. -/
def tour_as_key (tour : List ℕ) : Option ℕ :=
  match tour.head?, tour.getLast? with
  | some f, some l => some (if f < l then pack tour else pack tour.reverse)
  | _, _ => none

/-- The `for i in 0..tour.len() - 1 { sum.add(dist_mat[tour[i]][tour[i + 1]]) }`
part of `calc_tour_length`: the sum of distances over consecutive pairs. -/
def pathSum (dist_mat : ℕ → ℕ → ℚ) : List ℕ → ℚ
  | a :: b :: rest => dist_mat a b + pathSum dist_mat (b :: rest)
  | _ => 0

/-- Embedding of `calc_tour_length`.  `fsum::FSum` is an exact summation (its
result is the correctly rounded value of the exact real sum, so it depends
only on the multiset of addends); it is modelled by exact `ℚ` addition.
`tour[0]` on an empty tour panics; the embedding returns `none`. -/
def calc_tour_length (dist_mat : ℕ → ℕ → ℚ) (tour : List ℕ) : Option ℚ :=
  match tour.head?, tour.getLast? with
  | some f, some l => some (dist_mat 0 f + pathSum dist_mat tour + dist_mat l 0)
  | _, _ => none

/-- A valid Tour for an `n`-town instance: a permutation of the contiguous
range `[1, n-1]`. -/
def validTour (n : ℕ) (tour : List ℕ) : Prop :=
  tour.Perm (List.range' 1 (n - 1))

instance validTour.instDecidable (n : ℕ) (tour : List ℕ) : Decidable (validTour n tour) :=
  List.decidablePerm _ _

/-- The body of `main`'s enumeration loop folded over the list of visited
tours.  The state is the result map (`FxHashMap<u64, f64>` modelled as
`ℕ → Option ℚ`, `insert` = pointwise overwrite) and the running minimum
(`f64` starting at `INFINITY`, modelled as `Option ℚ` with `none` for `+∞`).
A panic inside the body (indexing an empty tour) is modelled by `none`. -/
def runLoop (dist_mat : ℕ → ℕ → ℚ) :
    List (List ℕ) → (ℕ → Option ℚ) → Option ℚ → Option ((ℕ → Option ℚ) × Option ℚ)
  | [], mp, mv => some (mp, mv)
  | t :: ts, mp, mv =>
    match calc_tour_length dist_mat t, tour_as_key t with
    | some len, some key =>
      runLoop dist_mat ts (fun k => if k = key then some len else mp k)
        (some (match mv with
               | none => len
               | some m => min m len))
    | _, _ => none

/-- `main` after the distance matrix is built: start from the identity tour
`(1..n).collect()`, visit the states of the permutation loop, and fold the
loop body.  `(n-1)!` fuel suffices by `permChain_spec`. -/
def tspRun (dist_mat : ℕ → ℕ → ℚ) (n : ℕ) : Option ((ℕ → Option ℚ) × Option ℚ) :=
  runLoop dist_mat (permChain ((n - 1).factorial) (List.range' 1 (n - 1)))
    (fun _ => none) none

/-- Distance matrix of the specification's worked example: three towns at
`(0,0)`, `(3,0)`, `(0,4)`. -/
def exampleDistMat : ℕ → ℕ → ℚ := fun i j =>
  match i, j with
  | 0, 1 => 3
  | 1, 0 => 3
  | 0, 2 => 4
  | 2, 0 => 4
  | 1, 2 => 5
  | 2, 1 => 5
  | _, _ => 0

/-- Result of the program on the specification's worked three-town example,
used to feed concrete hypotheses to the loop theorems. -/
def tspPair3 : (ℕ → Option ℚ) × Option ℚ :=
  (tspRun exampleDistMat 3).getD ((fun _ => none), none)

example : pack [1, 2] = 1 := by decide
example : tour_as_key [1, 2] = some 1 := by decide
example : tour_as_key [2, 1] = some 1 := by decide
example : tour_as_key [] = none := rfl
example : calc_tour_length exampleDistMat [1, 2] = some 12 := by
  norm_num [calc_tour_length, pathSum, exampleDistMat]
example : calc_tour_length exampleDistMat [2, 1] = some 12 := by
  norm_num [calc_tour_length, pathSum, exampleDistMat]
example : calc_tour_length exampleDistMat [] = none := rfl
example : tour_as_key [2, 4, 1, 3] = tour_as_key [3, 1, 4, 2] := by decide

/-- `pack` without the `u64` reductions; within the packing limit
(`≤ 16` indices, each `≤ 16`) the two agree. -/
def packRaw (tour : List ℕ) : ℕ :=
  tour.foldl (fun key t => key * 2 ^ 4 + (t - 1)) 0

lemma packRaw_foldl_acc : ∀ (T : List ℕ) (acc : ℕ),
    T.foldl (fun key t => key * 2 ^ 4 + (t - 1)) acc =
      acc * 16 ^ T.length + packRaw T := by
  intro T
  induction T with
  | nil => intro acc; simp [packRaw]
  | cons t T ih =>
    intro acc
    rw [List.foldl_cons, ih]
    have h2 : packRaw (t :: T) = (t - 1) * 16 ^ T.length + packRaw T := by
      rw [packRaw, List.foldl_cons, ih]
      norm_num
    rw [h2, List.length_cons]
    ring

lemma packRaw_lt : ∀ (T : List ℕ), (∀ x ∈ T, x ≤ 16) → packRaw T < 16 ^ T.length := by
  intro T
  induction T with
  | nil => intro _; simp [packRaw]
  | cons t T ih =>
    intro hb
    have hT := ih (fun x hx => hb x (List.mem_cons_of_mem t hx))
    have ht : t - 1 ≤ 15 := by
      have := hb t (List.mem_cons_self t T)
      omega
    have h2 : packRaw (t :: T) = (t - 1) * 16 ^ T.length + packRaw T := by
      rw [packRaw, List.foldl_cons, packRaw_foldl_acc]
      norm_num
    rw [h2, List.length_cons, pow_succ]
    calc (t - 1) * 16 ^ T.length + packRaw T
        < (t - 1) * 16 ^ T.length + 16 ^ T.length := Nat.add_lt_add_left hT _
      _ = (t - 1 + 1) * 16 ^ T.length := by ring
      _ ≤ 16 * 16 ^ T.length := Nat.mul_le_mul_right _ (by omega)
      _ = 16 ^ T.length * 16 := by ring

/-- Base-16 digit strings of equal length with digits below the radix decode
injectively. -/
lemma packRaw_inj : ∀ (t1 t2 : List ℕ), t1.length = t2.length →
    (∀ x ∈ t1, 1 ≤ x ∧ x ≤ 16) → (∀ x ∈ t2, 1 ≤ x ∧ x ≤ 16) →
    packRaw t1 = packRaw t2 → t1 = t2 := by
  intro t1
  induction t1 with
  | nil =>
    intro t2 hlen _ _ _
    exact (List.length_eq_zero.mp hlen.symm).symm
  | cons a T1 ih =>
    intro t2 hlen hb1 hb2 heq
    cases t2 with
    | nil => simp at hlen
    | cons b T2 =>
      rw [List.length_cons, List.length_cons] at hlen
      have hL : T1.length = T2.length := by omega
      have e1 : packRaw (a :: T1) = (a - 1) * 16 ^ T1.length + packRaw T1 := by
        rw [packRaw, List.foldl_cons, packRaw_foldl_acc]
        norm_num
      have e2 : packRaw (b :: T2) = (b - 1) * 16 ^ T2.length + packRaw T2 := by
        rw [packRaw, List.foldl_cons, packRaw_foldl_acc]
        norm_num
      have hr1 : packRaw T1 < 16 ^ T1.length :=
        packRaw_lt T1 (fun x hx => (hb1 x (List.mem_cons_of_mem a hx)).2)
      have hr2 : packRaw T2 < 16 ^ T2.length :=
        packRaw_lt T2 (fun x hx => (hb2 x (List.mem_cons_of_mem b hx)).2)
      rw [e1, e2, ← hL] at heq
      have hpos : 0 < 16 ^ T1.length := pow_pos (by norm_num) _
      have hd : a - 1 = b - 1 := by
        have d1 : (16 ^ T1.length * (a - 1) + packRaw T1) / 16 ^ T1.length = a - 1 := by
          rw [Nat.mul_add_div hpos, Nat.div_eq_of_lt hr1, Nat.add_zero]
        have d2 : (16 ^ T1.length * (b - 1) + packRaw T2) / 16 ^ T1.length = b - 1 := by
          rw [Nat.mul_add_div hpos, Nat.div_eq_of_lt (by rw [hL]; exact hr2), Nat.add_zero]
        rw [← d1, ← d2]
        congr 1
        calc 16 ^ T1.length * (a - 1) + packRaw T1
            = (a - 1) * 16 ^ T1.length + packRaw T1 := by ring
          _ = (b - 1) * 16 ^ T1.length + packRaw T2 := heq
          _ = 16 ^ T1.length * (b - 1) + packRaw T2 := by ring
      have ha : a = b := by
        have h1 := (hb1 a (List.mem_cons_self a T1)).1
        have h2 := (hb2 b (List.mem_cons_self b T2)).1
        omega
      have hrest : packRaw T1 = packRaw T2 := by
        rw [hd] at heq
        exact Nat.add_left_cancel heq
      rw [ha, ih T2 hL (fun x hx => hb1 x (List.mem_cons_of_mem a hx))
        (fun x hx => hb2 x (List.mem_cons_of_mem b hx)) hrest]

lemma pack_eq_packRaw_aux : ∀ (T : List ℕ) (acc : ℕ), (∀ x ∈ T, x ≤ 16) →
    T.length ≤ 16 → acc < 16 ^ (16 - T.length) →
    T.foldl (fun key t => ((key * 2 ^ 4) % 2 ^ 64 + (t - 1)) % 2 ^ 64) acc =
      T.foldl (fun key t => key * 2 ^ 4 + (t - 1)) acc := by
  intro T
  induction T with
  | nil => intro acc _ _ _; rfl
  | cons t T ih =>
    intro acc hb hlen hacc
    rw [List.foldl_cons, List.foldl_cons]
    have ht : t - 1 ≤ 15 := by
      have := hb t (List.mem_cons_self t T)
      omega
    rw [List.length_cons] at hlen hacc
    have hA : 16 ^ (16 - T.length) = 16 ^ (16 - (T.length + 1)) * 16 := by
      rw [← pow_succ]
      congr 1
      omega
    have hle : (16:ℕ) ^ (16 - T.length) ≤ 16 ^ 16 :=
      Nat.pow_le_pow_right (by norm_num) (by omega)
    have h64 : (16:ℕ) ^ 16 = 2 ^ 64 := by norm_num
    have hstep : acc * 2 ^ 4 + (t - 1) < 16 ^ (16 - T.length) := by
      rw [show (2:ℕ) ^ 4 = 16 from by norm_num]
      omega
    have hmod1 : (acc * 2 ^ 4) % 2 ^ 64 = acc * 2 ^ 4 := by
      apply Nat.mod_eq_of_lt
      calc acc * 2 ^ 4 ≤ acc * 2 ^ 4 + (t - 1) := Nat.le_add_right _ _
        _ < 16 ^ (16 - T.length) := hstep
        _ ≤ 16 ^ 16 := hle
        _ = 2 ^ 64 := h64
    have hmod2 : (acc * 2 ^ 4 + (t - 1)) % 2 ^ 64 = acc * 2 ^ 4 + (t - 1) := by
      apply Nat.mod_eq_of_lt
      calc acc * 2 ^ 4 + (t - 1) < 16 ^ (16 - T.length) := hstep
        _ ≤ 16 ^ 16 := hle
        _ = 2 ^ 64 := h64
    rw [hmod1, hmod2]
    exact ih _ (fun x hx => hb x (List.mem_cons_of_mem t hx)) (by omega) hstep

/-- Within the packing limit the `u64` arithmetic never wraps. -/
lemma pack_eq_packRaw (T : List ℕ) (hb : ∀ x ∈ T, x ≤ 16) (hlen : T.length ≤ 16) :
    pack T = packRaw T :=
  pack_eq_packRaw_aux T 0 hb hlen (pow_pos (by norm_num) _)

lemma validTour_bounds {n : ℕ} {T : List ℕ} (h : validTour n T) (hn : n - 1 ≤ 16) :
    ∀ x ∈ T, 1 ≤ x ∧ x ≤ 16 := by
  intro x hx
  have hx2 : x ∈ List.range' 1 (n - 1) := h.subset hx
  rw [List.mem_range'] at hx2
  obtain ⟨i, hi, rfl⟩ := hx2
  omega

lemma validTour_length {n : ℕ} {T : List ℕ} (h : validTour n T) : T.length = n - 1 := by
  rw [h.length_eq, List.length_range']

lemma tour_as_key_eq {T : List ℕ} {f l : ℕ} (hf : T.head? = some f)
    (hl : T.getLast? = some l) :
    tour_as_key T = some (if f < l then pack T else pack T.reverse) := by
  simp only [tour_as_key, hf, hl]

lemma calc_tour_length_eq {dm : ℕ → ℕ → ℚ} {T : List ℕ} {f l : ℕ}
    (hf : T.head? = some f) (hl : T.getLast? = some l) :
    calc_tour_length dm T = some (dm 0 f + pathSum dm T + dm l 0) := by
  simp only [calc_tour_length, hf, hl]

lemma exists_head_last {T : List ℕ} (h : T ≠ []) :
    ∃ f l, T.head? = some f ∧ T.getLast? = some l :=
  ⟨T.head h, T.getLast h, List.head?_eq_head h, List.getLast?_eq_getLast T h⟩

lemma head_ne_getLast {T : List ℕ} (h : T ≠ []) (hnd : T.Nodup) (hlen : 2 ≤ T.length) :
    T.head h ≠ T.getLast h := by
  rw [List.head_eq_getElem, List.getLast_eq_getElem]
  intro he
  have h0 := (hnd.getElem_inj_iff).mp he
  omega

/-- Core of claim C2: the canonical key is invariant under tour reversal. -/
theorem tour_key_reverse_eq (T : List ℕ) (hne : T ≠ []) (hnd : T.Nodup) :
    tour_as_key T = tour_as_key T.reverse := by
  by_cases h1 : T.length = 1
  · obtain ⟨x, rfl⟩ := List.length_eq_one.mp h1
    rfl
  have h0 : T.length ≠ 0 := fun h => hne (List.length_eq_zero.mp h)
  have hlen : 2 ≤ T.length := by omega
  have hf : T.head? = some (T.head hne) := List.head?_eq_head hne
  have hl : T.getLast? = some (T.getLast hne) := List.getLast?_eq_getLast T hne
  have hrf : T.reverse.head? = some (T.getLast hne) := by rw [List.head?_reverse, hl]
  have hrl : T.reverse.getLast? = some (T.head hne) := by rw [List.getLast?_reverse, hf]
  rw [tour_as_key_eq hf hl, tour_as_key_eq hrf hrl, List.reverse_reverse]
  have hfl : T.head hne ≠ T.getLast hne := head_ne_getLast hne hnd hlen
  rcases lt_trichotomy (T.head hne) (T.getLast hne) with h | h | h
  · rw [if_pos h, if_neg (lt_asymm h)]
  · exact absurd h hfl
  · rw [if_neg (lt_asymm h), if_pos h]

/-- Core of claim C3: within the packing limit, equal keys force equal tours
up to reversal. -/
theorem tour_key_inj {n : ℕ} {T1 T2 : List ℕ} (h1 : validTour n T1)
    (h2 : validTour n T2) (hlim : n - 1 ≤ 16) (hne : T1 ≠ T2)
    (hnrev : T2 ≠ T1.reverse) : tour_as_key T1 ≠ tour_as_key T2 := by
  intro hkey
  have hn0 : n - 1 ≠ 0 := by
    intro h0
    have e1 : T1 = [] := by
      have hp := h1
      rw [validTour, h0] at hp
      simpa using List.perm_nil.mp hp
    have e2 : T2 = [] := by
      have hp := h2
      rw [validTour, h0] at hp
      simpa using List.perm_nil.mp hp
    exact hne (e1.trans e2.symm)
  have hT1ne : T1 ≠ [] := by
    intro h0
    have hl := validTour_length h1
    rw [h0] at hl
    simp at hl
    omega
  have hT2ne : T2 ≠ [] := by
    intro h0
    have hl := validTour_length h2
    rw [h0] at hl
    simp at hl
    omega
  obtain ⟨f1, l1, hf1, hl1⟩ := exists_head_last hT1ne
  obtain ⟨f2, l2, hf2, hl2⟩ := exists_head_last hT2ne
  rw [tour_as_key_eq hf1 hl1, tour_as_key_eq hf2 hl2, Option.some.injEq,
    ← apply_ite pack, ← apply_ite pack] at hkey
  have hperm1 : validTour n (if f1 < l1 then T1 else T1.reverse) := by
    rw [validTour]
    split
    · exact h1
    · exact (List.reverse_perm T1).trans h1
  have hperm2 : validTour n (if f2 < l2 then T2 else T2.reverse) := by
    rw [validTour]
    split
    · exact h2
    · exact (List.reverse_perm T2).trans h2
  have hb1 := validTour_bounds hperm1 hlim
  have hb2 := validTour_bounds hperm2 hlim
  have hlen12 : (if f1 < l1 then T1 else T1.reverse).length =
      (if f2 < l2 then T2 else T2.reverse).length := by
    rw [validTour_length hperm1, validTour_length hperm2]
  have hceq : (if f1 < l1 then T1 else T1.reverse) =
      (if f2 < l2 then T2 else T2.reverse) := by
    apply packRaw_inj _ _ hlen12 hb1 hb2
    rw [← pack_eq_packRaw _ (fun x hx => (hb1 x hx).2)
        (by rw [validTour_length hperm1]; exact hlim),
      ← pack_eq_packRaw _ (fun x hx => (hb2 x hx).2)
        (by rw [validTour_length hperm2]; exact hlim)]
    exact hkey
  by_cases hA : f1 < l1
  · rw [if_pos hA] at hceq
    by_cases hB : f2 < l2
    · rw [if_pos hB] at hceq
      exact hne hceq
    · rw [if_neg hB] at hceq
      exact hnrev (by rw [hceq, List.reverse_reverse])
  · rw [if_neg hA] at hceq
    by_cases hB : f2 < l2
    · rw [if_pos hB] at hceq
      exact hnrev hceq.symm
    · rw [if_neg hB] at hceq
      exact hne (by rw [← List.reverse_reverse T1, hceq, List.reverse_reverse])

lemma pathSum_concat (dm : ℕ → ℕ → ℚ) :
    ∀ (T : List ℕ) (b a : ℕ),
      pathSum dm ((T ++ [b]) ++ [a]) = pathSum dm (T ++ [b]) + dm b a := by
  intro T
  induction T with
  | nil =>
    intro b a
    show dm b a + 0 = 0 + dm b a
    ring
  | cons c T ih =>
    intro b a
    cases T with
    | nil =>
      show dm c b + (dm b a + 0) = (dm c b + 0) + dm b a
      ring
    | cons d T' =>
      show dm c d + pathSum dm (((d :: T') ++ [b]) ++ [a]) =
        (dm c d + pathSum dm ((d :: T') ++ [b])) + dm b a
      rw [ih b a]
      ring

/-- For a symmetric distance matrix the consecutive-pair sum is direction
independent. -/
lemma pathSum_reverse (dm : ℕ → ℕ → ℚ) (hsym : ∀ i j, dm i j = dm j i) :
    ∀ T : List ℕ, pathSum dm T.reverse = pathSum dm T := by
  intro T
  induction T with
  | nil => rfl
  | cons x T ih =>
    cases T with
    | nil => rfl
    | cons y T' =>
      rw [List.reverse_cons, show (y :: T').reverse = T'.reverse ++ [y] from
        List.reverse_cons y T', pathSum_concat dm T'.reverse y x,
        ← List.reverse_cons y T', ih]
      show pathSum dm (y :: T') + dm y x = dm x y + pathSum dm (y :: T')
      rw [hsym y x]
      ring

/-- Core of claim C9: round-trip length is invariant under reversal for a
symmetric distance matrix (with `FSum` modelled as exact summation). -/
theorem calc_tour_length_reverse (dm : ℕ → ℕ → ℚ) (hsym : ∀ i j, dm i j = dm j i)
    (T : List ℕ) : calc_tour_length dm T = calc_tour_length dm T.reverse := by
  by_cases hne : T = []
  · subst hne; rfl
  obtain ⟨f, l, hf, hl⟩ := exists_head_last hne
  have hrf : T.reverse.head? = some l := by rw [List.head?_reverse, hl]
  have hrl : T.reverse.getLast? = some f := by rw [List.getLast?_reverse, hf]
  rw [calc_tour_length_eq hf hl, calc_tour_length_eq hrf hrl,
    pathSum_reverse dm hsym]
  congr 1
  rw [hsym 0 f, hsym l 0]
  ring

lemma runLoop_isSome (dm : ℕ → ℕ → ℚ) :
    ∀ (ts : List (List ℕ)), (∀ t ∈ ts, t ≠ []) →
      ∀ mp mv, ∃ res, runLoop dm ts mp mv = some res := by
  intro ts
  induction ts with
  | nil => intro _ mp mv; exact ⟨(mp, mv), rfl⟩
  | cons t ts ih =>
    intro hne mp mv
    have ht : t ≠ [] := hne t (List.mem_cons_self t ts)
    obtain ⟨f, l, hf, hl⟩ := exists_head_last ht
    simp only [runLoop, calc_tour_length_eq hf hl, tour_as_key_eq hf hl]
    exact ih (fun x hx => hne x (List.mem_cons_of_mem t hx)) _ _

/-- Keys never written keep their initial map entry. -/
lemma runLoop_map_none (dm : ℕ → ℕ → ℚ) :
    ∀ (ts : List (List ℕ)) (mp : ℕ → Option ℚ) (mv : Option ℚ) mp' mv',
      runLoop dm ts mp mv = some (mp', mv') →
      ∀ k, (∀ t ∈ ts, tour_as_key t ≠ some k) → mp' k = mp k := by
  intro ts
  induction ts with
  | nil =>
    intro mp mv mp' mv' h k _
    simp only [runLoop, Option.some.injEq, Prod.mk.injEq] at h
    rw [← h.1]
  | cons t ts ih =>
    intro mp mv mp' mv' h k hk
    cases hc : calc_tour_length dm t with
    | none => simp [runLoop, hc] at h
    | some len =>
      cases hkey : tour_as_key t with
      | none => simp [runLoop, hc, hkey] at h
      | some key =>
        simp only [runLoop, hc, hkey] at h
        have hkne : key ≠ k := by
          intro he
          exact hk t (List.mem_cons_self t ts) (by rw [hkey, he])
        have h2 := ih _ _ _ _ h k (fun x hx => hk x (List.mem_cons_of_mem t hx))
        rw [h2]
        show (if k = key then some len else mp k) = mp k
        rw [if_neg (show ¬ k = key by omega)]

/-- Last write wins: the retained value for a key is the length of the last
tour (in visiting order) that produced that key. -/
lemma runLoop_map_last (dm : ℕ → ℕ → ℚ) :
    ∀ (ts : List (List ℕ)) (mp : ℕ → Option ℚ) (mv : Option ℚ) mp' mv',
      runLoop dm ts mp mv = some (mp', mv') →
      ∀ (k : ℕ) (rest : List (List ℕ)) (T : List ℕ),
        ts.filter (fun t => tour_as_key t = some k) = rest ++ [T] →
        mp' k = calc_tour_length dm T := by
  intro ts
  induction ts with
  | nil =>
    intro mp mv mp' mv' _ k rest T hfl
    simp only [List.filter_nil] at hfl
    exact absurd hfl.symm (by simp)
  | cons t ts ih =>
    intro mp mv mp' mv' h k rest T hfl
    cases hc : calc_tour_length dm t with
    | none => simp [runLoop, hc] at h
    | some len =>
      cases hkey : tour_as_key t with
      | none => simp [runLoop, hc, hkey] at h
      | some key =>
        simp only [runLoop, hc, hkey] at h
        by_cases hkk : key = k
        · subst hkk
          rw [List.filter_cons_of_pos (by simp [hkey])] at hfl
          cases hfl2 : ts.filter (fun t => tour_as_key t = some key) with
          | nil =>
            rw [hfl2] at hfl
            have hrest : rest = [] := by
              cases rest with
              | nil => rfl
              | cons r rs =>
                exfalso
                have hlen := congrArg List.length hfl
                simp at hlen
            subst hrest
            rw [List.nil_append] at hfl
            have hTt : t = T := by injection hfl
            subst hTt
            have hnone : ∀ x ∈ ts, tour_as_key x ≠ some key := by
              intro x hx he
              have hmemf : x ∈ ts.filter (fun t => tour_as_key t = some key) := by
                rw [List.mem_filter]
                exact ⟨hx, by simp [he]⟩
              rw [hfl2] at hmemf
              simp at hmemf
            have h2 := runLoop_map_none dm ts _ _ _ _ h key hnone
            rw [h2]
            show (if key = key then some len else mp key) = calc_tour_length dm t
            rw [if_pos rfl, hc]
          | cons u us =>
            rw [hfl2] at hfl
            cases rest with
            | nil =>
              exfalso
              rw [List.nil_append] at hfl
              have hlen := congrArg List.length hfl
              simp at hlen
            | cons r rs =>
              rw [List.cons_append] at hfl
              injection hfl with h1 h2
              exact ih _ _ _ _ h key rs T (by rw [hfl2]; exact h2)
        · rw [List.filter_cons_of_neg (by simp [hkey]; omega)] at hfl
          exact ih _ _ _ _ h k rest T hfl

/-- The tracked minimum never increases as the loop advances. -/
lemma runLoop_min_mono (dm : ℕ → ℕ → ℚ) :
    ∀ (ts : List (List ℕ)) (mp : ℕ → Option ℚ) (mv : Option ℚ) mp' mv',
      runLoop dm ts mp mv = some (mp', mv') →
      ∀ m0, mv = some m0 → ∃ m', mv' = some m' ∧ m' ≤ m0 := by
  intro ts
  induction ts with
  | nil =>
    intro mp mv mp' mv' h m0 hm
    simp only [runLoop, Option.some.injEq, Prod.mk.injEq] at h
    exact ⟨m0, by rw [← h.2, hm], le_refl m0⟩
  | cons t ts ih =>
    intro mp mv mp' mv' h m0 hm
    cases hc : calc_tour_length dm t with
    | none => simp [runLoop, hc] at h
    | some len =>
      cases hkey : tour_as_key t with
      | none => simp [runLoop, hc, hkey] at h
      | some key =>
        simp only [runLoop, hc, hkey, hm] at h
        obtain ⟨m', hm', hle⟩ := ih _ _ _ _ h (min m0 len) rfl
        exact ⟨m', hm', le_trans hle (min_le_left m0 len)⟩

/-- The tracked minimum is a lower bound for the length of every visited
tour. -/
lemma runLoop_min_le (dm : ℕ → ℕ → ℚ) :
    ∀ (ts : List (List ℕ)) (mp : ℕ → Option ℚ) (mv : Option ℚ) mp' mv',
      runLoop dm ts mp mv = some (mp', mv') →
      ∀ t ∈ ts, ∀ q, calc_tour_length dm t = some q →
        ∃ m', mv' = some m' ∧ m' ≤ q := by
  intro ts
  induction ts with
  | nil => intro mp mv mp' mv' _ t ht; simp at ht
  | cons t ts ih =>
    intro mp mv mp' mv' h x hx q hq
    cases hc : calc_tour_length dm t with
    | none => simp [runLoop, hc] at h
    | some len =>
      cases hkey : tour_as_key t with
      | none => simp [runLoop, hc, hkey] at h
      | some key =>
        simp only [runLoop, hc, hkey] at h
        rcases List.mem_cons.mp hx with rfl | hx2
        · have hql : q = len := by
            rw [hc] at hq
            exact (Option.some.injEq _ _ ▸ hq).symm
          subst hql
          cases hm : mv with
          | none =>
            rw [hm] at h
            obtain ⟨m', hm', hle⟩ := runLoop_min_mono dm ts _ _ _ _ h q rfl
            exact ⟨m', hm', hle⟩
          | some m0 =>
            rw [hm] at h
            obtain ⟨m', hm', hle⟩ := runLoop_min_mono dm ts _ _ _ _ h (min m0 q) rfl
            exact ⟨m', hm', le_trans hle (min_le_right m0 q)⟩
        · exact ih _ _ _ _ h x hx2 q hq

/-- The tracked minimum is attained: it is the initial value or the length of
some visited tour. -/
lemma runLoop_min_attained (dm : ℕ → ℕ → ℚ) :
    ∀ (ts : List (List ℕ)) (mp : ℕ → Option ℚ) (mv : Option ℚ) mp' mv',
      runLoop dm ts mp mv = some (mp', mv') →
      mv' = mv ∨ ∃ t ∈ ts, ∃ q, calc_tour_length dm t = some q ∧ mv' = some q := by
  intro ts
  induction ts with
  | nil =>
    intro mp mv mp' mv' h
    simp only [runLoop, Option.some.injEq, Prod.mk.injEq] at h
    exact Or.inl h.2.symm
  | cons t ts ih =>
    intro mp mv mp' mv' h
    cases hc : calc_tour_length dm t with
    | none => simp [runLoop, hc] at h
    | some len =>
      cases hkey : tour_as_key t with
      | none => simp [runLoop, hc, hkey] at h
      | some key =>
        simp only [runLoop, hc, hkey] at h
        rcases ih _ _ _ _ h with h1 | ⟨x, hx, q, hq, hv⟩
        · cases hm : mv with
          | none =>
            rw [hm] at h1
            exact Or.inr ⟨t, List.mem_cons_self t ts, len, hc, h1⟩
          | some m0 =>
            rw [hm] at h1
            have h1m : mv' = some (min m0 len) := h1
            rcases min_choice m0 len with he | he
            · rw [he] at h1m
              exact Or.inl (by rw [h1m])
            · rw [he] at h1m
              exact Or.inr ⟨t, List.mem_cons_self t ts, len, hc, h1m⟩
        · exact Or.inr ⟨x, List.mem_cons_of_mem t hx, q, hq, hv⟩

/-- Invariant: the tracked minimum is a lower bound for every value held in
the result map. -/
lemma runLoop_map_min (dm : ℕ → ℕ → ℚ) :
    ∀ (ts : List (List ℕ)) (mp : ℕ → Option ℚ) (mv : Option ℚ) mp' mv',
      runLoop dm ts mp mv = some (mp', mv') →
      (∀ k v, mp k = some v → ∃ m, mv = some m ∧ m ≤ v) →
      ∀ k v, mp' k = some v → ∃ m, mv' = some m ∧ m ≤ v := by
  intro ts
  induction ts with
  | nil =>
    intro mp mv mp' mv' h hinv k v hk
    simp only [runLoop, Option.some.injEq, Prod.mk.injEq] at h
    rw [← h.2]
    exact hinv k v (by rw [h.1]; exact hk)
  | cons t ts ih =>
    intro mp mv mp' mv' h hinv k v hk
    cases hc : calc_tour_length dm t with
    | none => simp [runLoop, hc] at h
    | some len =>
      cases hkey : tour_as_key t with
      | none => simp [runLoop, hc, hkey] at h
      | some key =>
        simp only [runLoop, hc, hkey] at h
        refine ih _ _ _ _ h ?_ k v hk
        intro k2 v2 hk2
        have hk3 : (if k2 = key then some len else mp k2) = some v2 := hk2
        by_cases hkk : k2 = key
        · rw [if_pos hkk, Option.some.injEq] at hk3
          subst hk3
          cases hm : mv with
          | none => exact ⟨len, rfl, le_refl len⟩
          | some m0 => exact ⟨min m0 len, rfl, min_le_right m0 len⟩
        · rw [if_neg hkk] at hk3
          obtain ⟨m, hm, hle⟩ := hinv k2 v2 hk3
          rw [hm]
          exact ⟨min m len, rfl, le_trans (min_le_left m len) hle⟩

lemma range'_sorted (k : ℕ) : (List.range' 1 k).Sorted (· < ·) :=
  List.pairwise_lt_range' 1 k

/-- The tours visited by `main`'s loop for an `n ≥ 2` instance: exactly the
valid tours, in strictly increasing lexicographic order, all nonempty. -/
lemma tspChain_facts (n : ℕ) (hn : 2 ≤ n) :
    (∀ m, m ∈ permChain ((n - 1).factorial) (List.range' 1 (n - 1)) ↔
      m.Perm (List.range' 1 (n - 1))) ∧
    (permChain ((n - 1).factorial) (List.range' 1 (n - 1))).Chain'
      (List.Lex (· < ·)) ∧
    (∀ t ∈ permChain ((n - 1).factorial) (List.range' 1 (n - 1)), t ≠ []) := by
  have hlen0 : (List.range' 1 (n - 1)).length = n - 1 := List.length_range' 1 1 (n - 1)
  obtain ⟨h1, h2, h3, h4, h5⟩ :=
    permChain_complete (List.range' 1 (n - 1)) (range'_sorted (n - 1))
  rw [hlen0] at h2 h4
  refine ⟨h4, h2, ?_⟩
  intro t ht h0
  have hperm := (h4 t).mp ht
  have hl := hperm.length_eq
  rw [h0, hlen0] at hl
  simp at hl
  omega

end Tsp

section Claims

/-- C1 (functional_correctness): from a sorted-ascending (identity) start of
`K` distinct elements, repeatedly calling `next_permutation` yields exactly
`K!` states (the initial one included), pairwise distinct, each a permutation
of the start — and conversely every permutation appears — in strictly
increasing lexicographic order, and the call made on the `K!`-th state
returns false. -/
theorem C1_permutation_enumeration {α : Type*} [LinearOrder α] [Inhabited α]
    (l : List α) (hsort : l.Sorted (· < ·)) :
    (permChain (l.length.factorial) l).length = l.length.factorial ∧
    (permChain (l.length.factorial) l).Chain' (List.Lex (· < ·)) ∧
    (permChain (l.length.factorial) l).Nodup ∧
    (∀ m, m ∈ permChain (l.length.factorial) l ↔ m.Perm l) ∧
    (∃ z, (permChain (l.length.factorial) l).getLast? = some z ∧
      next_permutation z = none) :=
  permChain_complete l hsort

theorem C1_witness :
    ([1, 2, 3] : List ℕ).Sorted (· < ·) ∧
      ((permChain (([1, 2, 3] : List ℕ).length.factorial) [1, 2, 3]).length =
        ([1, 2, 3] : List ℕ).length.factorial ∧
      (permChain (([1, 2, 3] : List ℕ).length.factorial) [1, 2, 3]).Chain'
        (List.Lex (· < ·)) ∧
      (permChain (([1, 2, 3] : List ℕ).length.factorial) [1, 2, 3]).Nodup ∧
      (∀ m, m ∈ permChain (([1, 2, 3] : List ℕ).length.factorial) [1, 2, 3] ↔
        m.Perm [1, 2, 3]) ∧
      (∃ z, (permChain (([1, 2, 3] : List ℕ).length.factorial)
          [1, 2, 3]).getLast? = some z ∧ next_permutation z = none)) :=
  ⟨by decide, C1_permutation_enumeration [1, 2, 3] (by decide)⟩

/-- C8 (frame_effect): `next_permutation` reports false — leaving the
sequence unchanged, which the `Option` embedding expresses by returning
`none` and no new sequence — exactly when the sequence has fewer than two
elements or is already weakly decreasing (the last permutation). -/
theorem C8_false_cases {α : Type*} [LinearOrder α] [Inhabited α] (a : List α) :
    next_permutation a = none ↔ (a.length < 2 ∨ a.Sorted (· ≥ ·)) :=
  next_permutation_eq_none_iff a

/-- C2 (algebraic_relational): the canonical key of a valid nonempty tour is
invariant under full reversal. -/
theorem C2_key_reversal_invariant (n : ℕ) (T : List ℕ) (hv : validTour n T)
    (hne : T ≠ []) (hlim : n - 1 ≤ 16) :
    tour_as_key T = tour_as_key T.reverse :=
  tour_key_reverse_eq T hne (hv.nodup_iff.mpr (List.nodup_range' 1 (n - 1)))

theorem C2_witness :
    (validTour 4 [2, 1, 3] ∧ ([2, 1, 3] : List ℕ) ≠ [] ∧ 4 - 1 ≤ 16) ∧
      tour_as_key [2, 1, 3] = tour_as_key ([2, 1, 3] : List ℕ).reverse :=
  ⟨by decide, C2_key_reversal_invariant 4 [2, 1, 3] (by decide) (by decide) (by decide)⟩

/-- C3 (functional_correctness): within the packing limit, two valid tours
that are neither equal nor exact reverses of one another never collide on
their canonical key. -/
theorem C3_key_injective_mod_reversal (n : ℕ) (T1 T2 : List ℕ)
    (h1 : validTour n T1) (h2 : validTour n T2) (hlim : n - 1 ≤ 16)
    (hne : T1 ≠ T2) (hnrev : T2 ≠ T1.reverse) :
    tour_as_key T1 ≠ tour_as_key T2 :=
  tour_key_inj h1 h2 hlim hne hnrev

theorem C3_witness :
    (validTour 4 [1, 2, 3] ∧ validTour 4 [1, 3, 2] ∧ 4 - 1 ≤ 16 ∧
      ([1, 2, 3] : List ℕ) ≠ [1, 3, 2] ∧
      ([1, 3, 2] : List ℕ) ≠ ([1, 2, 3] : List ℕ).reverse) ∧
      tour_as_key [1, 2, 3] ≠ tour_as_key [1, 3, 2] :=
  ⟨by decide, C3_key_injective_mod_reversal 4 [1, 2, 3] [1, 3, 2]
    (by decide) (by decide) (by decide) (by decide) (by decide)⟩

/-- C9 (numerical): for a symmetric distance matrix the round-trip length of
a tour equals that of its reversal exactly — both directions sum the same
multiset of distance terms, and `FSum` (modelled as exact summation, which
is what its error-free contract guarantees) is order independent. -/
theorem C9_length_reversal_invariant (dm : ℕ → ℕ → ℚ)
    (hsym : ∀ i j, dm i j = dm j i) (T : List ℕ) :
    calc_tour_length dm T = calc_tour_length dm T.reverse :=
  calc_tour_length_reverse dm hsym T

theorem C9_witness :
    (∀ i j, exampleDistMat i j = exampleDistMat j i) ∧
      calc_tour_length exampleDistMat [1, 2] =
        calc_tour_length exampleDistMat ([1, 2] : List ℕ).reverse := by
  have hsym : ∀ i j, exampleDistMat i j = exampleDistMat j i := by
    intro i j
    rcases i with _ | _ | _ | i <;> rcases j with _ | _ | _ | j <;> rfl
  exact ⟨hsym, C9_length_reversal_invariant exampleDistMat hsym [1, 2]⟩

/-- C4 (functional_correctness): after the full enumeration the tracked
global minimum is `some m` where `m` is the true minimum of
`calc_tour_length` over every directed tour (every permutation of
`[1, n-1]`) — a lower bound that is attained. -/
theorem C4_global_minimum (n : ℕ) (hn : 2 ≤ n) (dm : ℕ → ℕ → ℚ) :
    ∃ mp mv m, tspRun dm n = some (mp, mv) ∧ mv = some m ∧
      (∀ T, validTour n T → ∃ q, calc_tour_length dm T = some q ∧ m ≤ q) ∧
      (∃ T, validTour n T ∧ calc_tour_length dm T = some m) := by
  obtain ⟨hmem, hchain, hne⟩ := tspChain_facts n hn
  obtain ⟨⟨mp, mv⟩, hrun⟩ := runLoop_isSome dm
    (permChain ((n - 1).factorial) (List.range' 1 (n - 1))) hne (fun _ => none) none
  have htsp : tspRun dm n = some (mp, mv) := hrun
  have hl0mem : List.range' 1 (n - 1) ∈
      permChain ((n - 1).factorial) (List.range' 1 (n - 1)) :=
    (hmem _).mpr (List.Perm.refl _)
  rcases runLoop_min_attained dm _ _ _ _ _ hrun with hA | ⟨t, ht, q, hq, hv⟩
  · exfalso
    obtain ⟨f, l, hf, hl⟩ := exists_head_last (hne _ hl0mem)
    obtain ⟨m', hm', -⟩ := runLoop_min_le dm _ _ _ _ _ hrun _ hl0mem _
      (calc_tour_length_eq hf hl)
    rw [hA] at hm'
    simp at hm'
  · refine ⟨mp, mv, q, htsp, hv, ?_, ⟨t, (hmem t).mp ht, hq⟩⟩
    intro T hT
    have hTC : T ∈ permChain ((n - 1).factorial) (List.range' 1 (n - 1)) :=
      (hmem T).mpr hT
    obtain ⟨f, l, hf, hl⟩ := exists_head_last (hne T hTC)
    obtain ⟨m', hm', hle⟩ := runLoop_min_le dm _ _ _ _ _ hrun T hTC _
      (calc_tour_length_eq hf hl)
    refine ⟨_, calc_tour_length_eq hf hl, ?_⟩
    rw [hv, Option.some.injEq] at hm'
    rw [hm']
    exact hle

theorem C4_witness :
    2 ≤ 3 ∧
      ∃ mp mv m, tspRun exampleDistMat 3 = some (mp, mv) ∧ mv = some m ∧
        (∀ T, validTour 3 T →
          ∃ q, calc_tour_length exampleDistMat T = some q ∧ m ≤ q) ∧
        (∃ T, validTour 3 T ∧ calc_tour_length exampleDistMat T = some m) :=
  ⟨by decide, C4_global_minimum 3 (by decide) exampleDistMat⟩

/-- C5 (functional_correctness): when several tours map to the same canonical
key, the result map keeps exactly the length computed for the last such tour
in enumeration order — which, the enumeration being strictly increasing, is
the lexicographically greatest tour producing that key. -/
theorem C5_last_write_wins (n : ℕ) (hn : 2 ≤ n) (dm : ℕ → ℕ → ℚ)
    (mp : ℕ → Option ℚ) (mv : Option ℚ) (hrun : tspRun dm n = some (mp, mv))
    (k : ℕ) (v : ℚ) (hk : mp k = some v) :
    ∃ T, validTour n T ∧ tour_as_key T = some k ∧
      calc_tour_length dm T = some v ∧
      ∀ T2, validTour n T2 → tour_as_key T2 = some k →
        T2 = T ∨ List.Lex (· < ·) T2 T := by
  obtain ⟨hmem, hchain, hne⟩ := tspChain_facts n hn
  have hrun2 : runLoop dm (permChain ((n - 1).factorial) (List.range' 1 (n - 1)))
      (fun _ => none) none = some (mp, mv) := hrun
  cases hFe : ((permChain ((n - 1).factorial) (List.range' 1 (n - 1))).filter
      (fun t => tour_as_key t = some k)).getLast? with
  | none =>
    exfalso
    rw [List.getLast?_eq_none_iff] at hFe
    have hnone : ∀ t ∈ permChain ((n - 1).factorial) (List.range' 1 (n - 1)),
        tour_as_key t ≠ some k := by
      intro t ht he
      have hmf : t ∈ (permChain ((n - 1).factorial)
          (List.range' 1 (n - 1))).filter (fun t => tour_as_key t = some k) := by
        rw [List.mem_filter]
        exact ⟨ht, by simp [he]⟩
      rw [hFe] at hmf
      simp at hmf
    have h0 := runLoop_map_none dm _ _ _ _ _ hrun2 k hnone
    rw [h0] at hk
    simp at hk
  | some T =>
    obtain ⟨rest, hrest⟩ := List.getLast?_eq_some_iff.mp hFe
    have hcalc : mp k = calc_tour_length dm T :=
      runLoop_map_last dm _ _ _ _ _ hrun2 k rest T hrest
    have hTF : T ∈ (permChain ((n - 1).factorial)
        (List.range' 1 (n - 1))).filter (fun t => tour_as_key t = some k) := by
      rw [hrest]
      exact List.mem_append_right rest (List.mem_singleton_self T)
    rw [List.mem_filter] at hTF
    have hTkey : tour_as_key T = some k := by simpa using hTF.2
    refine ⟨T, (hmem T).mp hTF.1, hTkey, by rw [← hcalc]; exact hk, ?_⟩
    intro T2 hT2 hk2
    have hT2C : T2 ∈ permChain ((n - 1).factorial) (List.range' 1 (n - 1)) :=
      (hmem T2).mpr hT2
    have hT2F : T2 ∈ (permChain ((n - 1).factorial)
        (List.range' 1 (n - 1))).filter (fun t => tour_as_key t = some k) := by
      rw [List.mem_filter]
      exact ⟨hT2C, by simp [hk2]⟩
    rw [hrest] at hT2F
    rcases List.mem_append.mp hT2F with h1 | h1
    · right
      have hpw : ((permChain ((n - 1).factorial)
          (List.range' 1 (n - 1))).filter
            (fun t => tour_as_key t = some k)).Pairwise (List.Lex (· < ·)) :=
        List.Pairwise.sublist (List.filter_sublist _)
          ((List.chain'_iff_pairwise).mp hchain)
      rw [hrest, List.pairwise_append] at hpw
      exact hpw.2.2 T2 h1 T (List.mem_singleton_self T)
    · left
      simpa using h1

theorem C5_witness :
    2 ≤ 3 ∧
      ∃ v, tspPair3.1 1 = some v ∧
        ∃ T, validTour 3 T ∧ tour_as_key T = some 1 ∧
          calc_tour_length exampleDistMat T = some v ∧
          ∀ T2, validTour 3 T2 → tour_as_key T2 = some 1 →
            T2 = T ∨ List.Lex (· < ·) T2 T := by
  refine ⟨by decide, ?_⟩
  obtain ⟨v, hv⟩ : ∃ v, tspPair3.1 1 = some v := ⟨_, rfl⟩
  exact ⟨v, hv, C5_last_write_wins 3 (by decide) exampleDistMat
    tspPair3.1 tspPair3.2 rfl 1 v hv⟩

/-- C6 (error_handling): the program does not reject instances beyond the
16-index packing limit and does not widen the key; for `N = 19` it silently
gives these two distinct, non-reverse tours the same canonical key (their two
leading 4-bit digits overflow out of the 64-bit key).  This contradicts the
specification's requirement to fail loudly or widen. -/
theorem C6_silent_key_collision :
    validTour 19 [2, 3, 1, 4, 5, 6, 7, 8, 9, 10, 11, 12, 13, 14, 15, 16, 17, 18] ∧
    validTour 19 [3, 2, 1, 4, 5, 6, 7, 8, 9, 10, 11, 12, 13, 14, 15, 16, 17, 18] ∧
    ([2, 3, 1, 4, 5, 6, 7, 8, 9, 10, 11, 12, 13, 14, 15, 16, 17, 18] : List ℕ) ≠
      [3, 2, 1, 4, 5, 6, 7, 8, 9, 10, 11, 12, 13, 14, 15, 16, 17, 18] ∧
    ([3, 2, 1, 4, 5, 6, 7, 8, 9, 10, 11, 12, 13, 14, 15, 16, 17, 18] : List ℕ) ≠
      ([2, 3, 1, 4, 5, 6, 7, 8, 9, 10, 11, 12, 13, 14, 15, 16, 17, 18] :
        List ℕ).reverse ∧
    tour_as_key [2, 3, 1, 4, 5, 6, 7, 8, 9, 10, 11, 12, 13, 14, 15, 16, 17, 18] =
      tour_as_key [3, 2, 1, 4, 5, 6, 7, 8, 9, 10, 11, 12, 13, 14, 15, 16, 17, 18] := by
  decide

/-- C7 counterexample: for the one-town instance the claim "the program still
processes exactly one (empty) tour, recording one degenerate length, without
failing" is false — the loop body indexes `tour[0]` on the empty tour, which
panics (modelled by the run producing `none` instead of a result map). -/
theorem C7_counterexample : tspRun exampleDistMat 1 = none := rfl

/-- C7 as amended (safety): for `n < 2` the identity tour is the empty
sequence, and the program does not record any degenerate length: both
`calc_tour_length` and `tour_as_key` fail on the empty tour (out-of-bounds
`tour[0]` / `tour.last().unwrap()`), so the run aborts (panics) instead of
producing a result map. -/
theorem C7_degenerate_instance_panics (dm : ℕ → ℕ → ℚ) (n : ℕ) (hn : n < 2) :
    List.range' 1 (n - 1) = [] ∧ calc_tour_length dm [] = none ∧
      tour_as_key [] = none ∧ tspRun dm n = none := by
  have hn0 : n - 1 = 0 := by omega
  refine ⟨by rw [hn0]; rfl, rfl, rfl, ?_⟩
  simp only [tspRun, hn0]
  rfl

theorem C7_amended_witness :
    (1 : ℕ) < 2 ∧
      (List.range' 1 (1 - 1) = [] ∧ calc_tour_length exampleDistMat [] = none ∧
        tour_as_key [] = none ∧ tspRun exampleDistMat 1 = none) :=
  ⟨by decide, C7_degenerate_instance_panics exampleDistMat 1 (by decide)⟩

/-- C10 (numerical): every length the result map holds after the run is at
least the tracked minimum, so every normalized output `length − min_length`
is nonnegative. -/
theorem C10_normalized_nonneg (n : ℕ) (dm : ℕ → ℕ → ℚ) (mp : ℕ → Option ℚ)
    (mv : Option ℚ) (hrun : tspRun dm n = some (mp, mv)) (k : ℕ) (v : ℚ)
    (hk : mp k = some v) : ∃ m, mv = some m ∧ m ≤ v ∧ 0 ≤ v - m := by
  have hinv : ∀ (k2 : ℕ) (v2 : ℚ), (fun (_ : ℕ) => (none : Option ℚ)) k2 = some v2 →
      ∃ m, (none : Option ℚ) = some m ∧ m ≤ v2 := by
    intro k2 v2 h2
    simp at h2
  obtain ⟨m, hm, hle⟩ := runLoop_map_min dm _ _ _ _ _ hrun hinv k v hk
  exact ⟨m, hm, hle, by rw [sub_nonneg]; exact hle⟩

theorem C10_witness :
    ∃ v, tspPair3.1 1 = some v ∧
      ∃ m, tspPair3.2 = some m ∧ m ≤ v ∧ 0 ≤ v - m := by
  obtain ⟨v, hv⟩ : ∃ v, tspPair3.1 1 = some v := ⟨_, rfl⟩
  exact ⟨v, hv, C10_normalized_nonneg 3 exampleDistMat tspPair3.1 tspPair3.2
    rfl 1 v hv⟩

end Claims

end TspVerify
